import Mathlib

/-!
Verification of the DeepDistill task-orchestration core against its source.

Shallow embedding of:
- `src/deepdistill/ai_analysis/llm_client.py` (retry executor and provider
  fallback router),
- `src/deepdistill/pipeline.py` (stage sequencer and progress reporting),
- `src/deepdistill/api.py` (task registry, concurrency gate, eviction sweep,
  API response truncation).

Python machine details are modelled as follows: dicts whose identity matters
are modelled as address/record stores, `None`-able fields as `Option`,
exceptions as `Except`, floats in progress arithmetic as `ℚ` with `Int.floor`
(`int()` on the non-negative values involved truncates toward zero, i.e.
floors; every quantity here is a small integer or a rational with denominator
95, so IEEE doubles round to the same floor).
-/

namespace DeepDistill

/-- Task lifecycle status, the four strings used throughout `api.py`. -/
inductive Status where
  | queued
  | processing
  | completed
  | failed
deriving DecidableEq, Repr

/-! ## Resilient Call Executor — `llm_client._call_single_provider`

The loop body `for attempt in range(max_retries)` is modelled with the
remaining fuel `max_retries - attempt` as the recursion measure.  Each
attempt's outcome is an input (`f attempt`); on failure the code sleeps
`2 ** attempt` seconds when `attempt < max_retries - 1` (equivalently, when
fuel after this attempt is nonzero).  The returned pair is the final result
together with the list of sleeps, in order.  `raise last_error` with
`last_error = None` (the `max_retries = 0` edge) is modelled by the error
payload being an `Option`. -/

def runAttempts (f : Nat → Except String String) :
    Nat → Nat → Option String → Except (Option String) String × List Nat
  | _, 0, lastError => (.error lastError, [])
  | attempt, fuel + 1, _ =>
    match f attempt with
    | .ok v => (.ok v, [])
    | .error e =>
      if fuel = 0 then
        runAttempts f (attempt + 1) fuel (some e)
      else
        ((runAttempts f (attempt + 1) fuel (some e)).1,
          2 ^ attempt :: (runAttempts f (attempt + 1) fuel (some e)).2)

/-- `_call_single_provider`: the retry loop of `llm_client.py` lines 85–116,
with the per-attempt call outcome abstracted as `f`. -/
def callSingleProvider (f : Nat → Except String String) (maxRetries : Nat) :
    Except (Option String) String × List Nat :=
  runAttempts f 0 maxRetries none

/-! ## Provider Fallback Router — `llm_client.call_llm` -/

/-- The de-duplication loop of `call_llm` lines 145–150: walk the chain,
keeping each provider the first time it is seen (`seen` is exactly the set of
elements of the accumulator). -/
def dedupChain (l : List String) : List String :=
  l.foldl (fun acc p => if p ∈ acc then acc else acc ++ [p]) []

/-- Error outcome of `call_llm`: a pinned provider's failure propagates
directly; reading a configuration attribute the `Config` class does not
define raises `AttributeError`; the fallback loop raises `RuntimeError`
embedding only the last candidate's failure (`last_error`). -/
inductive LlmError where
  | direct (e : String)
  | attributeError (attr : String)
  | allFailed (last : Option String)
deriving DecidableEq, Repr

/-- The fallback loop of `call_llm` lines 152–167: try each candidate in
order, returning the first success; remember the last failure.  Also returns
the list of providers actually invoked, in order. -/
def tryProviders (f : String → Except String String) :
    List String → Option String → List String × Except LlmError String
  | [], lastError => ([], .error (.allFailed lastError))
  | p :: rest, _ =>
    match f p with
    | .ok v => ([p], .ok v)
    | .error e =>
      let r := tryProviders f rest (some e)
      (p :: r.1, r.2)

/-- `call_llm` lines 139–167: a pinned provider is called alone and its error
propagates.  Otherwise line 144 first reads `cfg.AI_FALLBACK_PROVIDERS`
(`fallbacksAttr`; `none` models the attribute being absent from `Config`, in
which case Python raises `AttributeError` before any chain is built), and
only then is the de-duplicated chain `[primary] + fallbacks` tried in order.
First component: providers invoked, in order. -/
def callLLM (pinned : Option String) (primary : String)
    (fallbacksAttr : Option (List String))
    (f : String → Except String String) : List String × Except LlmError String :=
  match pinned with
  | some p =>
    match f p with
    | .ok v => ([p], .ok v)
    | .error e => ([p], .error (.direct e))
  | none =>
    match fallbacksAttr with
    | none => ([], .error (.attributeError "AI_FALLBACK_PROVIDERS"))
    | some fallbacks => tryProviders f (dedupChain (primary :: fallbacks)) none

/-- Attribute lookup of `AI_FALLBACK_PROVIDERS` on the `cfg` singleton:
`Config` (config.py lines 34–132) defines no such attribute and nothing in
the repository assigns it, so the lookup yields nothing and line 144 of
`call_llm` raises `AttributeError`. -/
def Config.AI_FALLBACK_PROVIDERS : Option (List String) := none

/-! ### Helper lemmas about the executor and router -/

lemma range_pow_shift (attempt k : Nat) :
    (2 : Nat) ^ attempt :: (List.range k).map (fun i => 2 ^ (attempt + 1 + i)) =
      (List.range (k + 1)).map fun i => 2 ^ (attempt + i) := by
  rw [List.range_succ_eq_map, List.map_cons, List.map_map]
  refine List.cons_eq_cons.mpr ⟨by simp, ?_⟩
  refine (List.map_congr_left ?_).symm
  intro i _
  show 2 ^ (attempt + (i + 1)) = 2 ^ (attempt + 1 + i)
  congr 1
  omega

lemma runAttempts_ok_of_firstFailures (f : Nat → Except String String) (v : String) :
    ∀ (k attempt fuel : Nat) (le : Option String),
      (∀ i, i < k → ∃ err, f (attempt + i) = .error err) →
      f (attempt + k) = .ok v → k < fuel →
      runAttempts f attempt fuel le =
        (.ok v, (List.range k).map fun i => 2 ^ (attempt + i)) := by
  intro k
  induction k with
  | zero =>
    intro attempt fuel le _ hok hk
    cases fuel with
    | zero => omega
    | succ m =>
      rw [Nat.add_zero] at hok
      simp [runAttempts, hok]
  | succ k ih =>
    intro attempt fuel le hfail hok hk
    cases fuel with
    | zero => omega
    | succ m =>
      obtain ⟨err, herr⟩ := hfail 0 (Nat.succ_pos k)
      rw [Nat.add_zero] at herr
      have hm : ¬ (m = 0) := by omega
      have ihr := ih (attempt + 1) m (some err)
        (fun i hi => by
          obtain ⟨er2, he2⟩ := hfail (i + 1) (by omega)
          exact ⟨er2, by rw [← he2]; congr 1; omega⟩)
        (by rw [← hok]; congr 1; omega)
        (by omega)
      simp only [runAttempts, herr, if_neg hm, ihr]
      exact congrArg (Prod.mk _) (range_pow_shift attempt k)

lemma tryProviders_firstSuccess (f : String → Except String String)
    (v : String) (p : String) (post : List String) (hok : f p = .ok v) :
    ∀ (pre : List String) (le : Option String),
      (∀ q ∈ pre, ∃ e, f q = .error e) →
      tryProviders f (pre ++ p :: post) le = (pre ++ [p], .ok v) := by
  intro pre
  induction pre with
  | nil => intro le _; simp [tryProviders, hok]
  | cons q pre ih =>
    intro le hfail
    obtain ⟨e, he⟩ := hfail q (by simp)
    have ihr := ih (some e) (fun r hr => hfail r (by simp [hr]))
    simp [tryProviders, he, ihr]

lemma tryProviders_allFail (f : String → Except String String) (e : String → String) :
    ∀ (chain : List String) (le : Option String),
      (∀ q ∈ chain, f q = .error (e q)) →
      tryProviders f chain le =
        (chain, .error (.allFailed (match chain.getLast? with
          | none => le
          | some q => some (e q)))) := by
  intro chain
  induction chain with
  | nil => intro le _; simp [tryProviders]
  | cons p rest ih =>
    intro le hfail
    have hp : f p = .error (e p) := hfail p (by simp)
    have ihr := ih (some (e p)) (fun q hq => hfail q (by simp [hq]))
    simp only [tryProviders, hp, ihr]
    cases rest with
    | nil => simp
    | cons r rs =>
      have hlast : (r :: rs).getLast? = some ((r :: rs).getLast (by simp)) :=
        List.getLast?_eq_getLast _ _
      rw [List.getLast?_cons_cons, hlast]

/-- One de-duplication step of `call_llm`. -/
def dedupStep (acc : List String) (p : String) : List String :=
  if p ∈ acc then acc else acc ++ [p]

lemma dedupChain_eq_foldl (l : List String) :
    dedupChain l = l.foldl dedupStep [] := rfl

lemma foldl_dedupStep_nodup :
    ∀ (l acc : List String), acc.Nodup → (l.foldl dedupStep acc).Nodup := by
  intro l
  induction l with
  | nil => intro acc h; simpa using h
  | cons p rest ih =>
    intro acc h
    by_cases hp : p ∈ acc
    · simpa [List.foldl_cons, dedupStep, hp] using ih acc h
    · refine ?_
      have hacc : (acc ++ [p]).Nodup := by
        simp [List.nodup_append, h, hp]
      simpa [List.foldl_cons, dedupStep, hp] using ih (acc ++ [p]) hacc

lemma foldl_dedupStep_append :
    ∀ (l acc : List String), ∃ s, l.foldl dedupStep acc = acc ++ s ∧ s.Sublist l := by
  intro l
  induction l with
  | nil => intro acc; exact ⟨[], by simp⟩
  | cons p rest ih =>
    intro acc
    by_cases hp : p ∈ acc
    · obtain ⟨s, hs, hsub⟩ := ih acc
      exact ⟨s, by simpa [List.foldl_cons, dedupStep, hp] using hs,
        hsub.trans (List.sublist_cons_self p rest)⟩
    · obtain ⟨s, hs, hsub⟩ := ih (acc ++ [p])
      refine ⟨p :: s, ?_, List.Sublist.cons₂ p hsub⟩
      simpa [List.foldl_cons, dedupStep, hp, List.append_assoc] using hs

lemma foldl_dedupStep_mem :
    ∀ (l acc : List String) (q : String),
      q ∈ l.foldl dedupStep acc ↔ q ∈ acc ∨ q ∈ l := by
  intro l
  induction l with
  | nil => intro acc q; simp
  | cons p rest ih =>
    intro acc q
    by_cases hp : p ∈ acc
    · rw [List.foldl_cons]
      simp only [dedupStep, if_pos hp, ih]
      constructor
      · rintro (h | h)
        · exact Or.inl h
        · exact Or.inr (by simp [h])
      · rintro (h | h)
        · exact Or.inl h
        · rcases List.mem_cons.mp h with rfl | h
          · exact Or.inl hp
          · exact Or.inr h
    · rw [List.foldl_cons]
      simp only [dedupStep, if_neg hp, ih]
      constructor
      · rintro (h | h)
        · rcases List.mem_append.mp h with h | h
          · exact Or.inl h
          · have hq := List.mem_singleton.mp h
            exact Or.inr (by simp [hq])
        · exact Or.inr (by simp [h])
      · rintro (h | h)
        · exact Or.inl (by simp [h])
        · rcases List.mem_cons.mp h with rfl | h
          · exact Or.inl (by simp)
          · exact Or.inr h

lemma dedupChain_nodup (l : List String) : (dedupChain l).Nodup :=
  foldl_dedupStep_nodup l [] List.nodup_nil

lemma dedupChain_sublist (l : List String) : (dedupChain l).Sublist l := by
  obtain ⟨s, hs, hsub⟩ := foldl_dedupStep_append l []
  rw [dedupChain_eq_foldl, hs]
  simpa using hsub

lemma dedupChain_mem (l : List String) (q : String) : q ∈ dedupChain l ↔ q ∈ l := by
  rw [dedupChain_eq_foldl, foldl_dedupStep_mem]
  simp

/-! ### Claim theorems for the executor and router -/

/-- C4: with `maxAttempts` and the hardcoded base backoff of 1 s, the Call
Executor of `_call_single_provider` sleeps `2 ^ i` seconds after failed
attempt `i` whenever attempts remain, and returns the first successful
attempt's value: if the first `k` attempts fail and attempt `k` succeeds
(`k < maxRetries`), the executor returns that success and the recorded sleeps
are exactly `[2^0, …, 2^(k-1)]` (so `1 s` then `2 s` for a call that fails
twice then succeeds with `maxAttempts = 3`). -/
theorem callExecutor_backoff_schedule (f : Nat → Except String String)
    (e : Nat → String) (v : String) (k maxRetries : Nat)
    (hfail : ∀ i, i < k → f i = .error (e i))
    (hok : f k = .ok v)
    (hk : k < maxRetries) :
    callSingleProvider f maxRetries = (.ok v, (List.range k).map fun i => 2 ^ i) := by
  have h := runAttempts_ok_of_firstFailures f v k 0 maxRetries none
    (fun i hi => ⟨e i, by simpa using hfail i hi⟩) (by simpa using hok) hk
  simpa [callSingleProvider] using h

/-- Witness for C4: the P4 scenario — fails twice then succeeds, with
`maxAttempts = 3`: sleeps are 1 s then 2 s, and the third attempt's value is
returned. -/
theorem callExecutor_backoff_schedule_witness :
    callSingleProvider (fun i => if i < 2 then .error "boom" else .ok "done") 3 =
      (.ok "done", [1, 2]) := by
  have h := callExecutor_backoff_schedule
    (fun i => if i < 2 then .error "boom" else .ok "done") (fun _ => "boom") "done" 2 3
    (fun i hi => by simp [hi]) (by simp) (by omega)
  rw [h]
  rfl

/-- Conditional routing behavior of `call_llm` lines 144–159: were the
fallback-provider attribute present, the unpinned path would try the
candidates of `dedupChain ([primary] ++ fallbacks)` — duplicate-free, a
subsequence of the configured list, containing exactly its names — strictly
in order; if the candidates before position `k` all fail and the one at `k`
succeeds, exactly the first `k+1` candidates are invoked, the success is
returned, and no candidate after position `k` is ever invoked. -/
theorem router_fallback_order_dedup (primary : String) (fallbacks : List String)
    (f : String → Except String String) (pre post : List String) (p v : String)
    (hchain : dedupChain (primary :: fallbacks) = pre ++ p :: post)
    (hfail : ∀ q ∈ pre, ∃ e, f q = .error e)
    (hok : f p = .ok v) :
    ((dedupChain (primary :: fallbacks)).Nodup
      ∧ (dedupChain (primary :: fallbacks)).Sublist (primary :: fallbacks)
      ∧ (∀ q, q ∈ dedupChain (primary :: fallbacks) ↔ q ∈ primary :: fallbacks))
    ∧ callLLM none primary (some fallbacks) f = (pre ++ [p], .ok v)
    ∧ ∀ q ∈ post, q ∉ pre ++ [p] := by
  have hnd : (pre ++ p :: post).Nodup := by
    rw [← hchain]; exact dedupChain_nodup _
  refine ⟨⟨dedupChain_nodup _, dedupChain_sublist _, fun q => dedupChain_mem _ q⟩, ?_, ?_⟩
  · show tryProviders f (dedupChain (primary :: fallbacks)) none = (pre ++ [p], .ok v)
    rw [hchain]
    exact tryProviders_firstSuccess f v p post hok pre none hfail
  · intro q hq hq'
    rcases List.mem_append.mp hq' with hpre | hp
    · rcases List.nodup_append.mp hnd with ⟨_, _, hdisj⟩
      exact hdisj hpre (by simp [hq])
    · have : q = p := by simpa using hp
      subst this
      rcases List.nodup_append.mp hnd with ⟨_, hnd2, _⟩
      exact (List.nodup_cons.mp hnd2).1 hq

/-- Instance of the conditional routing behavior, the spec's P5 scenario:
providers `[a, b, a, c]` with `a` failing and `b` succeeding: the chain is
`[a, b, c]`, only `a` then `b` are invoked, `b`'s result is returned, and `c`
is not invoked. -/
theorem router_fallback_order_dedup_witness :
    callLLM none "a" (some ["b", "a", "c"])
        (fun q => if q = "a" then .error "ea" else if q = "b" then .ok "vb" else .ok "vc") =
      (["a", "b"], .ok "vb")
    ∧ "c" ∉ ["a", "b"] := by
  have h := router_fallback_order_dedup "a" ["b", "a", "c"]
    (fun q => if q = "a" then .error "ea" else if q = "b" then .ok "vb" else .ok "vc")
    ["a"] ["c"] "b" "vb" (by rfl)
    (fun q hq => ⟨"ea", by simp at hq; simp [hq]⟩) (by simp)
  refine ⟨by simpa using h.2.1, ?_⟩
  exact h.2.2 "c" (by simp)

/-- Conditional aggregation behavior of `call_llm` lines 152–167: were the
fallback-provider attribute present and every candidate in the de-duplicated
chain failing, the unpinned path would raise the aggregate `RuntimeError`
embedding exactly the last candidate's failure; earlier candidates' failures
would not appear in the raised error. -/
theorem router_allFail_wraps_last (primary : String) (fallbacks : List String)
    (f : String → Except String String) (e : String → String) (pLast : String)
    (hfail : ∀ q ∈ dedupChain (primary :: fallbacks), f q = .error (e q))
    (hlast : (dedupChain (primary :: fallbacks)).getLast? = some pLast) :
    callLLM none primary (some fallbacks) f =
      (dedupChain (primary :: fallbacks), .error (.allFailed (some (e pLast)))) := by
  have h := tryProviders_allFail f e (dedupChain (primary :: fallbacks)) none hfail
  show tryProviders f (dedupChain (primary :: fallbacks)) none = _
  rw [h, hlast]

/-- Instance of the conditional aggregation behavior, the spec's P6
scenario: providers `[a, b]` both failing: the raised error wraps `b`'s (the
last) failure. -/
theorem router_allFail_wraps_last_witness :
    callLLM none "a" (some ["b"]) (fun q => .error ("err-" ++ q)) =
      (["a", "b"], .error (.allFailed (some "err-b"))) := by
  have h := router_allFail_wraps_last "a" ["b"] (fun q => .error ("err-" ++ q))
    (fun q => "err-" ++ q) "b" (fun q _ => rfl) (by rfl)
  simpa using h

/-- C5: the routing the claim describes is what lines 144–159 implement, but
the shipped program cannot execute it: `Config` defines no
`AI_FALLBACK_PROVIDERS` attribute, so every unpinned `call_llm` call (the
only kind the program makes, via `extract_knowledge`) raises
`AttributeError` at line 144 — no candidate list is built and no provider is
ever invoked, whatever the providers would have answered. -/
theorem router_unpinned_attribute_error (primary : String)
    (f : String → Except String String) :
    callLLM none primary Config.AI_FALLBACK_PROVIDERS f
      = ([], .error (.attributeError "AI_FALLBACK_PROVIDERS")) := rfl

/-- C6: the all-candidates-fail aggregation is unreachable in the shipped
program: even when every provider would fail, an unpinned call raises
`AttributeError` (from the missing `AI_FALLBACK_PROVIDERS` attribute) having
invoked no provider, and never produces the aggregate error wrapping the
last candidate's failure. -/
theorem router_allFail_unreachable (primary : String) (e : String → String) :
    callLLM none primary Config.AI_FALLBACK_PROVIDERS (fun q => .error (e q))
        = ([], .error (.attributeError "AI_FALLBACK_PROVIDERS"))
      ∧ ∀ last : Option String,
          (callLLM none primary Config.AI_FALLBACK_PROVIDERS
              (fun q => .error (e q))).2 ≠ .error (.allFailed last) := by
  refine ⟨rfl, fun last h => ?_⟩
  simp [callLLM, Config.AI_FALLBACK_PROVIDERS] at h

/-! ## Task Registry & Concurrency Controller — `api.py`

`_run_pipeline` (and `_run_url_pipeline`) wrap the whole task body in
`async with _pipeline_semaphore`, and the very first statement inside the
`with` block is `task["status"] = "processing"`.  We model the system as a
transition system: a task record carries its status and whether its coroutine
currently holds the semaphore; the semaphore's free-slot count is explicit.
The steps are exactly the status writes of `api.py` (submission creates a
`queued` record; `processing` may be written only while holding the gate;
terminal statuses are written inside the `with` block; the slot is released
on exit from the block, on every path). -/

structure SemTask where
  status : Status
  holdsSem : Bool
deriving DecidableEq, Repr

structure SysState where
  tasks : List SemTask
  semAvail : Nat
deriving Repr

/-- Startup: empty registry, `_pipeline_semaphore` has all `N` slots free
(`asyncio.Semaphore(MAX_CONCURRENT_PIPELINES)`, default `N = 3`). -/
def initState (N : Nat) : SysState := ⟨[], N⟩

/-- One scheduler step of the api layer.  `submit` is task creation
(`status = "queued"`); `acquire` is `_pipeline_semaphore` granting a slot to
a waiting coroutine; `startProcessing` is `task["status"] = "processing"`,
which the code reaches only inside the `with` block, i.e. holding the
semaphore; `finish` is any of the terminal status writes inside the block;
`release` is the exit of the `async with` block (always executed). -/
inductive SysStep : SysState → SysState → Prop where
  | submit (s : SysState) :
      SysStep s ⟨s.tasks ++ [⟨.queued, false⟩], s.semAvail⟩
  | acquire (s : SysState) (i : Nat) (h : i < s.tasks.length)
      (hq : s.tasks.get ⟨i, h⟩ = ⟨.queued, false⟩)
      (hs : 0 < s.semAvail) :
      SysStep s ⟨s.tasks.set i ⟨.queued, true⟩, s.semAvail - 1⟩
  | startProcessing (s : SysState) (i : Nat) (h : i < s.tasks.length)
      (hq : s.tasks.get ⟨i, h⟩ = ⟨.queued, true⟩) :
      SysStep s ⟨s.tasks.set i ⟨.processing, true⟩, s.semAvail⟩
  | finish (s : SysState) (i : Nat) (h : i < s.tasks.length) (st : Status)
      (hp : s.tasks.get ⟨i, h⟩ = ⟨.processing, true⟩)
      (hterm : st = .completed ∨ st = .failed) :
      SysStep s ⟨s.tasks.set i ⟨st, true⟩, s.semAvail⟩
  | release (s : SysState) (i : Nat) (h : i < s.tasks.length) (st : Status)
      (hp : s.tasks.get ⟨i, h⟩ = ⟨st, true⟩)
      (hterm : st = .completed ∨ st = .failed) :
      SysStep s ⟨s.tasks.set i ⟨st, false⟩, s.semAvail + 1⟩

/-- States reachable from startup with concurrency ceiling `N`. -/
inductive Reachable (N : Nat) : SysState → Prop where
  | init : Reachable N (initState N)
  | step {s s' : SysState} : Reachable N s → SysStep s s' → Reachable N s'

def holdersCount (s : SysState) : Nat := s.tasks.countP (·.holdsSem)

def processingCount (s : SysState) : Nat :=
  s.tasks.countP (fun t => t.status == .processing)

/-- The semaphore invariant: free slots plus held slots total `N`, and every
`processing` task holds a slot. -/
def SemInv (N : Nat) (s : SysState) : Prop :=
  s.semAvail + holdersCount s = N ∧
    ∀ t ∈ s.tasks, t.status = .processing → t.holdsSem = true

lemma countP_set_of_same {α : Type} (p : α → Bool) :
    ∀ (l : List α) (i : Nat) (h : i < l.length) (a : α),
      p (l.get ⟨i, h⟩) = p a → (l.set i a).countP p = l.countP p := by
  intro l
  induction l with
  | nil => intro i h; exact absurd h (by simp)
  | cons x xs ih =>
    intro i h a hpa
    cases i with
    | zero =>
      simp only [List.get] at hpa
      simp [List.set, List.countP_cons, hpa]
    | succ j =>
      simp only [List.get] at hpa
      have hj : j < xs.length := by simpa using h
      simp [List.set, List.countP_cons, ih j hj a hpa]

lemma countP_set_true_of_false {α : Type} (p : α → Bool) :
    ∀ (l : List α) (i : Nat) (h : i < l.length) (a : α),
      p (l.get ⟨i, h⟩) = false → p a = true →
      (l.set i a).countP p = l.countP p + 1 := by
  intro l
  induction l with
  | nil => intro i h; simp at h
  | cons x xs ih =>
    intro i h a hold hnew
    cases i with
    | zero =>
      simp only [List.get] at hold
      simp [List.set, List.countP_cons, hold, hnew]
    | succ j =>
      simp only [List.get] at hold
      have hj : j < xs.length := by simpa using h
      simp only [List.set, List.countP_cons, ih j hj a hold hnew]
      omega

lemma countP_set_false_of_true {α : Type} (p : α → Bool) :
    ∀ (l : List α) (i : Nat) (h : i < l.length) (a : α),
      p (l.get ⟨i, h⟩) = true → p a = false →
      (l.set i a).countP p + 1 = l.countP p := by
  intro l
  induction l with
  | nil => intro i h; simp at h
  | cons x xs ih =>
    intro i h a hold hnew
    cases i with
    | zero =>
      simp only [List.get] at hold
      simp [List.set, List.countP_cons, hold, hnew]
    | succ j =>
      simp only [List.get] at hold
      have hj : j < xs.length := by simpa using h
      simp only [List.set, List.countP_cons]
      have := ih j hj a hold hnew
      omega

lemma semInv_preserved {N : Nat} {s s' : SysState}
    (hinv : SemInv N s) (hstep : SysStep s s') : SemInv N s' := by
  obtain ⟨hcount, hproc⟩ := hinv
  cases hstep with
  | submit =>
    constructor
    · show s.semAvail + (s.tasks ++ [(⟨.queued, false⟩ : SemTask)]).countP (·.holdsSem) = N
      rw [List.countP_append]
      simpa [holdersCount] using hcount
    · intro t ht hst
      rcases List.mem_append.mp ht with ht | ht
      · exact hproc t ht hst
      · have hteq : t = (⟨.queued, false⟩ : SemTask) := by simpa using ht
        rw [hteq] at hst
        simp at hst
  | acquire i h hq hs =>
    constructor
    · show (s.semAvail - 1) + (s.tasks.set i (⟨.queued, true⟩ : SemTask)).countP (·.holdsSem) = N
      have := countP_set_true_of_false (·.holdsSem) s.tasks i h ⟨.queued, true⟩
        (by rw [hq]) (by rfl)
      rw [this]
      unfold holdersCount at hcount
      omega
    · intro t ht hst
      rcases List.mem_or_eq_of_mem_set ht with ht | rfl
      · exact hproc t ht hst
      · rfl
  | startProcessing i h hq =>
    constructor
    · show s.semAvail + (s.tasks.set i (⟨.processing, true⟩ : SemTask)).countP (·.holdsSem) = N
      have := countP_set_of_same (·.holdsSem) s.tasks i h ⟨.processing, true⟩
        (by rw [hq])
      rw [this]
      exact hcount
    · intro t ht hst
      rcases List.mem_or_eq_of_mem_set ht with ht | rfl
      · exact hproc t ht hst
      · rfl
  | finish i h st hp hterm =>
    constructor
    · show s.semAvail + (s.tasks.set i (⟨st, true⟩ : SemTask)).countP (·.holdsSem) = N
      have := countP_set_of_same (·.holdsSem) s.tasks i h ⟨st, true⟩ (by rw [hp])
      rw [this]
      exact hcount
    · intro t ht hst
      rcases List.mem_or_eq_of_mem_set ht with ht | rfl
      · exact hproc t ht hst
      · rfl
  | release i h st hp hterm =>
    constructor
    · show (s.semAvail + 1) + (s.tasks.set i (⟨st, false⟩ : SemTask)).countP (·.holdsSem) = N
      have := countP_set_false_of_true (·.holdsSem) s.tasks i h ⟨st, false⟩
        (by rw [hp]) (by rfl)
      unfold holdersCount at hcount
      omega
    · intro t ht hst
      rcases List.mem_or_eq_of_mem_set ht with ht | rfl
      · exact hproc t ht hst
      · have hst2 : st = .processing := by simpa using hst
        rw [hst2] at hterm
        rcases hterm with h1 | h1 <;> cases h1

lemma semInv_of_reachable {N : Nat} {s : SysState} (h : Reachable N s) : SemInv N s := by
  induction h with
  | init => exact ⟨by simp [initState, holdersCount], by intro t ht; simp [initState] at ht⟩
  | step _ hstep ih => exact semInv_preserved ih hstep

/-- C1: in every state reachable from startup with concurrency ceiling `N`,
at most `N` task records have status `processing`, and every `processing`
task's coroutine holds the semaphore (so `processing` is only ever entered
after the gate was acquired). -/
theorem concurrency_bound {N : Nat} {s : SysState} (h : Reachable N s) :
    processingCount s ≤ N ∧
      ∀ t ∈ s.tasks, t.status = .processing → t.holdsSem = true := by
  obtain ⟨hcount, hproc⟩ := semInv_of_reachable h
  refine ⟨?_, hproc⟩
  have hle : processingCount s ≤ holdersCount s := by
    refine List.countP_mono_left ?_
    intro t ht hpt
    have : t.status = .processing := by
      simpa using hpt
    simpa using hproc t ht this
  omega

/-- Witness for C1: from startup with the default ceiling `N = 3`, submit a
task, admit it and mark it `processing`; the bound holds in the resulting
state. -/
theorem concurrency_bound_witness :
    processingCount ⟨[⟨.processing, true⟩], 2⟩ ≤ 3 ∧
      ∀ t ∈ (⟨[⟨.processing, true⟩], 2⟩ : SysState).tasks,
        t.status = .processing → t.holdsSem = true := by
  have h0 : Reachable 3 (initState 3) := Reachable.init
  have h1 : Reachable 3 ⟨[⟨.queued, false⟩], 3⟩ := by
    have := Reachable.step h0 (SysStep.submit (initState 3))
    simpa [initState] using this
  have h2 : Reachable 3 ⟨[⟨.queued, true⟩], 2⟩ :=
    Reachable.step h1 (SysStep.acquire _ 0 (by simp) (by rfl) (by simp))
  have h3 : Reachable 3 ⟨[⟨.processing, true⟩], 2⟩ :=
    Reachable.step h2 (SysStep.startProcessing _ 0 (by simp) (by rfl))
  exact concurrency_bound h3

/-! ## Pipeline Stage Sequencer — `pipeline.py`

`Pipeline.PROGRESS_STEPS` assigns each stage a percentage window;
`_report_progress` maps a sub-progress fraction into the window and invokes
the progress callback.  The field `end` of the Python dict is named `stop`
here (`end` is reserved in Lean). -/

structure StepInfo where
  start : Nat
  stop : Nat
  label : String
deriving DecidableEq, Repr

/-- `Pipeline.PROGRESS_STEPS` (pipeline.py lines 85–93). -/
def PROGRESS_STEPS : List (String × StepInfo) :=
  [("identify", ⟨5, 10, "识别文件格式"⟩),
   ("extract", ⟨10, 35, "提取文本内容"⟩),
   ("style", ⟨35, 55, "分析风格特征"⟩),
   ("ai", ⟨55, 80, "AI 结构化提炼"⟩),
   ("output", ⟨80, 90, "生成输出文件"⟩),
   ("visual", ⟨90, 95, "生成视觉素材"⟩),
   ("done", ⟨95, 100, "处理完成"⟩)]

/-- The percent computation of `_report_progress` (pipeline.py line 117–118):
`pct = int(info["start"] + span * min(sub_progress, 1.0))`; `int()` on these
non-negative values is the floor. -/
def reportPct (info : StepInfo) (sub : ℚ) : ℤ :=
  ⌊(info.start : ℚ) + ((info.stop : ℚ) - info.start) * min sub 1⌋

/-- `Pipeline._report_progress`: the percent values delivered to the progress
callback by one call (empty when the step name is unknown — the code returns
without invoking the callback). -/
def reportProgress (step : String) (sub : ℚ) : List ℤ :=
  match PROGRESS_STEPS.lookup step with
  | none => []
  | some info => [reportPct info sub]

/-- The sequence of percent values `Pipeline.process` reports, in order
(pipeline.py lines 124–215): identification start; if a type was identified,
the remaining stage endpoints in declaration order — stage failures append to
`result.errors` but do not change the reported sequence, and a skipped style
stage still fires its window's endpoint. -/
def processWrites (intent : String) (identified : Bool) : List ℤ :=
  reportProgress "identify" 0 ++
    if identified then
      reportProgress "identify" 1 ++
      reportProgress "extract" 0 ++ reportProgress "extract" 1 ++
      (if intent == "style" then reportProgress "style" 0 ++ reportProgress "style" 1
       else reportProgress "style" 1) ++
      reportProgress "ai" 0 ++ reportProgress "ai" 1 ++
      reportProgress "output" 0 ++ reportProgress "output" 1 ++
      reportProgress "visual" 1 ++ reportProgress "done" 1
    else []

/-- All values written to `task["progress"]` by the file-upload runner
`_run_pipeline` (api.py lines 853–924) over a task lifetime: 0 at creation,
5 on admission, the pipeline callback values, then 100 on completion (the
pipeline returns a result exactly when identification succeeded; on timeout
or exception the observed sequence is a prefix of this one with no further
writes). -/
def runPipelineProgressWrites (intent : String) (identified : Bool) : List ℤ :=
  0 :: 5 :: (processWrites intent identified ++ if identified then [100] else [])

/-- `_run_url_pipeline`'s `_on_progress` mapping (api.py lines 615–618):
pipeline percent `pct` is rescaled by `int(base + (pct - 5) * (95 - base) / 95)`
and clamped at 95. -/
def urlMapPct (base pct : ℤ) : ℤ := min (base + (pct - 5) * (95 - base) / 95) 95

def urlBase (isVideo : Bool) : ℤ := if isVideo then 15 else 10

/-- All values written to `task["progress"]` by the URL runner
`_run_url_pipeline` (api.py lines 536–668): 0 at creation, 2 on admission; a
video platform demanding cookies aborts at once; otherwise 5 then 15 (video
downloaded) or 5 then 10 (web page fetched), the rescaled pipeline callback
values, then 100 on completion. -/
def runUrlPipelineProgressWrites (isVideo cookieRequired : Bool)
    (intent : String) (identified : Bool) : List ℤ :=
  0 :: 2 ::
    (if cookieRequired then []
     else (if isVideo then [5, 15] else [5, 10]) ++
       (processWrites intent identified).map (urlMapPct (urlBase isVideo)) ++
       (if identified then [100] else []))

lemma reportPct_zero (info : StepInfo) : reportPct info 0 = info.start := by
  unfold reportPct
  have hmin : min (0 : ℚ) 1 = 0 := by norm_num
  rw [hmin, mul_zero, add_zero, Int.floor_natCast]

lemma reportPct_one (info : StepInfo) : reportPct info 1 = info.stop := by
  unfold reportPct
  have hmin : min (1 : ℚ) 1 = 1 := by norm_num
  rw [hmin, mul_one]
  have harith : (info.start : ℚ) + ((info.stop : ℚ) - info.start) = (info.stop : ℚ) := by
    ring
  rw [harith, Int.floor_natCast]

lemma reportProgress_eval (step : String) (info : StepInfo)
    (hl : PROGRESS_STEPS.lookup step = some info) (sub : ℚ) :
    reportProgress step sub = [reportPct info sub] := by
  simp [reportProgress, hl]

lemma processWrites_eval (intent : String) (identified : Bool) :
    processWrites intent identified =
      if identified then
        if intent == "style" then
          [5, 10, 10, 35, 35, 55, 55, 80, 80, 90, 95, 100]
        else [5, 10, 10, 35, 55, 55, 80, 80, 90, 95, 100]
      else [5] := by
  have hi0 := reportProgress_eval "identify" ⟨5, 10, "识别文件格式"⟩ rfl
  have he := reportProgress_eval "extract" ⟨10, 35, "提取文本内容"⟩ rfl
  have hs := reportProgress_eval "style" ⟨35, 55, "分析风格特征"⟩ rfl
  have ha := reportProgress_eval "ai" ⟨55, 80, "AI 结构化提炼"⟩ rfl
  have ho := reportProgress_eval "output" ⟨80, 90, "生成输出文件"⟩ rfl
  have hv := reportProgress_eval "visual" ⟨90, 95, "生成视觉素材"⟩ rfl
  have hd := reportProgress_eval "done" ⟨95, 100, "处理完成"⟩ rfl
  cases identified with
  | false => simp [processWrites, hi0, reportPct_zero]
  | true =>
    cases h : (intent == "style") with
    | true =>
      simp [processWrites, h, hi0, he, hs, ha, ho, hv, hd, reportPct_zero, reportPct_one]
    | false =>
      simp [processWrites, h, hi0, he, hs, ha, ho, hv, hd, reportPct_zero, reportPct_one]

/-- C2: every sequence of values either task runner writes to a task's
`progress` field over its lifetime is non-decreasing, for every intent,
identification outcome and URL probing outcome. -/
theorem progress_monotonic (intent : String) (identified isVideo cookieRequired : Bool) :
    (runPipelineProgressWrites intent identified).Chain' (· ≤ ·) ∧
      (runUrlPipelineProgressWrites isVideo cookieRequired intent identified).Chain'
        (· ≤ ·) := by
  cases h : (intent == "style") <;>
    rcases identified with _ | _ <;>
      rcases isVideo with _ | _ <;>
        rcases cookieRequired with _ | _ <;>
          simp [runPipelineProgressWrites, runUrlPipelineProgressWrites,
            processWrites_eval, h, urlBase, urlMapPct, List.chain'_cons]

/-- C9: for every declared stage window and sub-progress fraction
`f ∈ [0, 1]`, the percent passed to the progress callback is
`start + f·(end − start)` rounded down. -/
theorem report_progress_window (step : String) (info : StepInfo) (f : ℚ)
    (hl : PROGRESS_STEPS.lookup step = some info)
    (_h0 : 0 ≤ f) (h1 : f ≤ 1) :
    reportProgress step f = [⌊(info.start : ℚ) + f * ((info.stop : ℚ) - info.start)⌋] := by
  simp only [reportProgress, hl]
  refine List.cons_eq_cons.mpr ⟨?_, rfl⟩
  unfold reportPct
  rw [min_eq_left h1]
  congr 1
  ring

/-- Witness for C9: the `extract` stage window is [10, 35]; at `f = 1/2` the
callback receives `⌊10 + 25/2⌋ = 22`. -/
theorem report_progress_window_witness :
    PROGRESS_STEPS.lookup "extract" = some ⟨10, 35, "提取文本内容"⟩ ∧
      reportProgress "extract" (1 / 2) = [22] := by
  refine ⟨by rfl, ?_⟩
  have h := report_progress_window "extract" ⟨10, 35, "提取文本内容"⟩ (1 / 2)
    (by rfl) (by norm_num) (by norm_num)
  rw [h]
  refine List.cons_eq_cons.mpr ⟨?_, rfl⟩
  have harith : ((⟨10, 35, "提取文本内容"⟩ : StepInfo).start : ℚ) +
      1 / 2 * (((⟨10, 35, "提取文本内容"⟩ : StepInfo).stop : ℚ) -
        ((⟨10, 35, "提取文本内容"⟩ : StepInfo).start : ℚ)) = 45 / 2 := by
    norm_num
  rw [harith]
  rw [Int.floor_eq_iff]
  norm_num

/-! ## `Pipeline.process` and the task-run boundary

`Pipeline.process` (pipeline.py lines 124–215) is modelled with every stage
call (`_identify_type`, `_extract_content`, `_analyze_video`,
`_analyze_image_style`, `_ai_analyze`, `_generate_output`) abstracted as an
input outcome.  Stage payload dicts are opaque `String` payloads; the
`created_at` timestamp and the float `processing_time_sec` play no role in
any claim and are omitted. -/

structure RegTask where
  id : Nat
  status : Status
  createdAt : Nat
deriving DecidableEq, Repr

def isTerminal (t : RegTask) : Bool := t.status == .completed || t.status == .failed

def isExpired (now expireHours : Nat) (t : RegTask) : Bool :=
  isTerminal t && decide (expireHours * 3600 < now - t.createdAt)

def insertByCreated (t : RegTask) : List RegTask → List RegTask
  | [] => [t]
  | u :: us =>
    if t.createdAt < u.createdAt then t :: u :: us else u :: insertByCreated t us

/-- Stable ascending sort by `createdAt` (equal keys keep encounter order, as
Python's stable `list.sort` does). -/
def sortByCreated (l : List RegTask) : List RegTask :=
  l.foldl (fun acc t => insertByCreated t acc) []

/-- `_cleanup_old_tasks`: no-op when the registry is within the cap;
otherwise terminal tasks past the expiry age are deleted, and if the registry
is still over the cap, the oldest terminal tasks are deleted until it is back
at the cap. -/
def cleanupOldTasks (maxTasks expireHours now : Nat) (tasks : List RegTask) :
    List RegTask :=
  if tasks.length ≤ maxTasks then tasks
  else
    let afterAge := tasks.filter fun t => !(isExpired now expireHours t)
    if afterAge.length ≤ maxTasks then afterAge
    else
      let completedSorted := sortByCreated (afterAge.filter isTerminal)
      let removeCount := afterAge.length - maxTasks
      let toRemove := (completedSorted.take removeCount).map fun t => t.id
      afterAge.filter fun t => !(decide (t.id ∈ toRemove))

lemma mem_insertByCreated (t a : RegTask) :
    ∀ l, a ∈ insertByCreated t l ↔ a = t ∨ a ∈ l := by
  intro l
  induction l with
  | nil => simp [insertByCreated]
  | cons u us ih =>
    simp only [insertByCreated]
    by_cases h : t.createdAt < u.createdAt
    · simp [h]
    · simp [h, ih]
      tauto

lemma mem_sortFold (a : RegTask) :
    ∀ (l acc : List RegTask),
      a ∈ l.foldl (fun acc t => insertByCreated t acc) acc ↔ a ∈ acc ∨ a ∈ l := by
  intro l
  induction l with
  | nil => intro acc; simp
  | cons u us ih =>
    intro acc
    rw [List.foldl_cons, ih, mem_insertByCreated]
    simp only [List.mem_cons]
    tauto

lemma mem_sortByCreated (a : RegTask) (l : List RegTask) :
    a ∈ sortByCreated l ↔ a ∈ l := by
  unfold sortByCreated
  rw [mem_sortFold]
  simp

lemma cleanup_subset_afterAge (maxTasks expireHours now : Nat)
    (tasks : List RegTask) (h1 : ¬ tasks.length ≤ maxTasks) :
    ∀ t ∈ cleanupOldTasks maxTasks expireHours now tasks,
      t ∈ tasks.filter fun u => !(isExpired now expireHours u) := by
  intro t ht
  simp only [cleanupOldTasks, if_neg h1] at ht
  by_cases h2 : (tasks.filter fun u => !(isExpired now expireHours u)).length ≤ maxTasks
  · rw [if_pos h2] at ht
    exact ht
  · rw [if_neg h2] at ht
    exact List.mem_of_mem_filter ht

/-- The stale-task instance for the C7 counterexample: one completed task,
25 hours old at sweep time. -/
def staleTask : RegTask := ⟨1, .completed, 0⟩

/-- Counterexample to C7 as stated: with the default configuration
(`maxTasks = 1000`, expiry 24 h), a sweep over a registry holding a single
completed task that is 25 h old removes nothing — the sweep returns early
whenever the registry is within the cap, so it does not remove every
expired terminal task. -/
theorem cleanup_counterexample :
    isTerminal staleTask = true
    ∧ isExpired (25 * 3600) 24 staleTask = true
    ∧ cleanupOldTasks 1000 24 (25 * 3600) [staleTask] = [staleTask] := by
  refine ⟨rfl, by decide, ?_⟩
  have h : ([staleTask].length ≤ 1000) := by decide
  simp [cleanupOldTasks, h]

/-- C7 amended: a sweep is a no-op while the registry size is within
`maxTasks`; when it exceeds `maxTasks`, the sweep removes every terminal task
older than the expiry age and — if still over the cap — the oldest terminal
tasks (by creation time) until the registry is back at the cap; non-terminal
tasks are never evicted by any sweep.  Stated as: (1) within-cap sweeps
change nothing; (2) non-terminal tasks always survive (ids unique, as dict
keys are); (3) an over-cap sweep leaves no expired task; (4) the P7
scenario — cap 2, three fresh terminal tasks with increasing `createdAt` —
keeps exactly the two most recent. -/
theorem cleanup_amended :
    (∀ maxTasks expireHours now tasks, tasks.length ≤ maxTasks →
      cleanupOldTasks maxTasks expireHours now tasks = tasks)
    ∧ (∀ maxTasks expireHours now tasks t,
        (tasks.map fun u => u.id).Nodup → t ∈ tasks → isTerminal t = false →
        t ∈ cleanupOldTasks maxTasks expireHours now tasks)
    ∧ (∀ maxTasks expireHours now tasks t, maxTasks < tasks.length →
        t ∈ cleanupOldTasks maxTasks expireHours now tasks →
        isExpired now expireHours t = false)
    ∧ cleanupOldTasks 2 24 400
        [⟨1, .completed, 100⟩, ⟨2, .completed, 200⟩, ⟨3, .completed, 300⟩]
        = [⟨2, .completed, 200⟩, ⟨3, .completed, 300⟩] := by
  refine ⟨?_, ?_, ?_, by decide⟩
  · intro maxTasks expireHours now tasks h1
    simp [cleanupOldTasks, h1]
  · intro maxTasks expireHours now tasks t hid ht hnt
    by_cases h1 : tasks.length ≤ maxTasks
    · simpa [cleanupOldTasks, h1] using ht
    · have hnx : isExpired now expireHours t = false := by
        unfold isExpired
        rw [hnt]
        rfl
      have htA : t ∈ tasks.filter fun u => !(isExpired now expireHours u) :=
        List.mem_filter.mpr ⟨ht, by simp [hnx]⟩
      simp only [cleanupOldTasks, if_neg h1]
      by_cases h2 :
          (tasks.filter fun u => !(isExpired now expireHours u)).length ≤ maxTasks
      · rw [if_pos h2]
        exact htA
      · rw [if_neg h2]
        refine List.mem_filter.mpr ⟨htA, ?_⟩
        simp only [Bool.not_eq_eq_eq_not, Bool.not_true, decide_eq_false_iff_not]
        intro hmem
        obtain ⟨u, hu, huid⟩ := List.mem_map.mp hmem
        have hu2 := List.take_subset _ _ hu
        have hu3 := (mem_sortByCreated u _).mp hu2
        have hu4 : u ∈ tasks := List.mem_of_mem_filter (List.mem_of_mem_filter hu3)
        have huT : isTerminal u = true := (List.mem_filter.mp hu3).2
        have : u = t := List.inj_on_of_nodup_map hid hu4 ht huid
        rw [this, hnt] at huT
        cases huT
  · intro maxTasks expireHours now tasks t h1 hmem
    have := cleanup_subset_afterAge maxTasks expireHours now tasks (by omega) t hmem
    have h2 := (List.mem_filter.mp this).2
    simpa using h2

/-- Witness for C7 (amended): a within-cap sweep leaves a small registry
untouched, and a non-terminal task survives an over-cap sweep. -/
theorem cleanup_amended_witness :
    cleanupOldTasks 1000 24 0 [⟨7, .queued, 0⟩] = [⟨7, .queued, 0⟩]
    ∧ (⟨7, .processing, 0⟩ : RegTask) ∈ cleanupOldTasks 1 24 0
        [⟨7, .processing, 0⟩, ⟨8, .completed, 0⟩] := by
  constructor
  · exact cleanup_amended.1 1000 24 0 [⟨7, .queued, 0⟩] (by decide)
  · exact cleanup_amended.2.1 1 24 0 [⟨7, .processing, 0⟩, ⟨8, .completed, 0⟩]
      ⟨7, .processing, 0⟩ (by decide) (by decide) (by decide)

/-! ## API response conversion — `api._task_to_api_response` (api.py 97–109)

`_task_to_api_response` does `resp = dict(task)` (a copy of the record),
then, when the result field holds a dict, `result = dict(result)` (a fresh
copy), truncates the copy's `raw_text`/`extracted_text` when they exceed
`API_TEXT_TRUNCATE` (default 5000), and makes the response point at the copy.
To make the no-mutation claim meaningful, result dicts live in an explicit
address store (Python object identity): the conversion only *allocates* a new
address for the copy and never writes to an existing one, so the registry's
record — which keeps pointing at the old address — retains the full text.
Both `get_task` and `list_tasks` go through this conversion. -/

/-- A result dict: the two large text fields and an opaque remainder the
conversion never touches. -/
structure ResultRec where
  raw_text : String
  extracted_text : String
  rest : String
deriving DecidableEq, Repr

abbrev Store := List (Nat × ResultRec)

def lookupStore (st : Store) (a : Nat) : Option ResultRec := st.lookup a

/-- A fresh address: strictly above every address in the store. -/
def freshAddr (st : Store) : Nat := (st.map fun e => e.1).foldr max 0 + 1

/-- The truncation note appended by the code (embeds the full length). -/
def truncNote (n : Nat) : String :=
  "\n\n... (已截断，完整文本 " ++ toString n ++ " 字符，请通过导出获取)"

/-- `text[:API_TEXT_TRUNCATE] + note` when `len(text) > API_TEXT_TRUNCATE`,
else the text unchanged. -/
def truncateText (limit : Nat) (text : String) : String :=
  if limit < text.length then text.take limit ++ truncNote text.length else text

/-- A stored task record, with its result dict held by reference. -/
structure StoredTask where
  status : Status
  progress : ℤ
  resultAddr : Option Nat
deriving DecidableEq, Repr

/-- `_task_to_api_response`: returns the extended store and the response
view.  The registry's own record (`t`) is a copy source only; the store is
only ever extended with the fresh copy. -/
def taskToApiResponse (limit : Nat) (st : Store) (t : StoredTask) :
    Store × StoredTask :=
  match t.resultAddr with
  | none => (st, t)
  | some a =>
    match lookupStore st a with
    | none => (st, t)
    | some r0 =>
      ((freshAddr st,
        { r0 with
          raw_text := truncateText limit r0.raw_text
          extracted_text := truncateText limit r0.extracted_text }) :: st,
       { t with resultAddr := some (freshAddr st) })

/-- `n` successive reads of the same task (each `get_task`/`list_tasks` entry
converts the stored record anew). -/
def readN (limit : Nat) (t : StoredTask) : Nat → Store → Store
  | 0, st => st
  | n + 1, st => readN limit t n (taskToApiResponse limit st t).1

lemma mem_le_foldr_max : ∀ (l : List Nat) (a : Nat), a ∈ l → a ≤ l.foldr max 0 := by
  intro l
  induction l with
  | nil => intro a ha; simp at ha
  | cons x xs ih =>
    intro a ha
    rcases List.mem_cons.mp ha with rfl | h
    · exact le_max_left _ _
    · exact le_trans (ih a h) (le_max_right _ _)

lemma lookupStore_fresh_cons (st : Store) (x : ResultRec) (b : Nat)
    (hb : b ∈ st.map fun e => e.1) :
    lookupStore ((freshAddr st, x) :: st) b = lookupStore st b := by
  have hlt : b < freshAddr st := by
    have := mem_le_foldr_max (st.map fun e => e.1) b hb
    unfold freshAddr
    omega
  have hne : (b == freshAddr st) = false := by
    simp only [beq_eq_false_iff_ne, ne_eq]
    omega
  simp [lookupStore, List.lookup, hne]

lemma taskToApiResponse_frame (limit : Nat) (st : Store) (t : StoredTask) (b : Nat)
    (hb : b ∈ st.map fun e => e.1) :
    lookupStore (taskToApiResponse limit st t).1 b = lookupStore st b ∧
      b ∈ (taskToApiResponse limit st t).1.map fun e => e.1 := by
  cases haddr : t.resultAddr with
  | none =>
    simp only [taskToApiResponse, haddr]
    exact ⟨trivial, hb⟩
  | some a =>
    cases hlook : lookupStore st a with
    | none =>
      simp only [taskToApiResponse, haddr, hlook]
      exact ⟨trivial, hb⟩
    | some r0 =>
      simp only [taskToApiResponse, haddr, hlook]
      refine ⟨lookupStore_fresh_cons st _ b hb, ?_⟩
      simp only [List.map_cons, List.mem_cons]
      exact Or.inr hb

lemma readN_frame (limit : Nat) (t : StoredTask) :
    ∀ (n : Nat) (st : Store) (b : Nat), (b ∈ st.map fun e => e.1) →
      lookupStore (readN limit t n st) b = lookupStore st b := by
  intro n
  induction n with
  | zero => intro st b _; rfl
  | succ m ih =>
    intro st b hb
    obtain ⟨h1, h2⟩ := taskToApiResponse_frame limit st t b hb
    calc lookupStore (readN limit t m (taskToApiResponse limit st t).1) b
        = lookupStore (taskToApiResponse limit st t).1 b := ih _ b h2
      _ = lookupStore st b := h1

/-- C10: converting a stored task to its API response truncates the result's
`raw_text`/`extracted_text` in the returned view exactly when their length
exceeds the threshold, and never mutates the stored record or its result:
the view points at a freshly allocated copy, the response carries the same
status/progress, every pre-existing address keeps its contents, and after any
number of reads the registry's result dict still holds the full text
unchanged. -/
theorem api_response_truncates_never_mutates (limit : Nat) (st : Store)
    (t : StoredTask) (a : Nat) (r0 : ResultRec)
    (haddr : t.resultAddr = some a) (hlook : lookupStore st a = some r0) :
    (∃ r2,
      lookupStore (taskToApiResponse limit st t).1
          ((taskToApiResponse limit st t).2.resultAddr.getD 0) = some r2
      ∧ (taskToApiResponse limit st t).2.status = t.status
      ∧ (taskToApiResponse limit st t).2.progress = t.progress
      ∧ (limit < r0.raw_text.length →
          r2.raw_text = r0.raw_text.take limit ++ truncNote r0.raw_text.length)
      ∧ (r0.raw_text.length ≤ limit → r2.raw_text = r0.raw_text)
      ∧ (limit < r0.extracted_text.length →
          r2.extracted_text =
            r0.extracted_text.take limit ++ truncNote r0.extracted_text.length)
      ∧ (r0.extracted_text.length ≤ limit → r2.extracted_text = r0.extracted_text)
      ∧ r2.rest = r0.rest)
    ∧ (∀ n, a ∈ (st.map fun e => e.1) →
        lookupStore (readN limit t n st) a = some r0) := by
  constructor
  · refine ⟨{ r0 with
        raw_text := truncateText limit r0.raw_text
        extracted_text := truncateText limit r0.extracted_text }, ?_, ?_, ?_,
      ?_, ?_, ?_, ?_, rfl⟩
    · simp only [taskToApiResponse, haddr, hlook]
      simp [lookupStore, List.lookup]
    · simp [taskToApiResponse, haddr, hlook]
    · simp [taskToApiResponse, haddr, hlook]
    · intro h
      simp [truncateText, h]
    · intro h
      simp [truncateText, Nat.not_lt.mpr h]
    · intro h
      simp [truncateText, h]
    · intro h
      simp [truncateText, Nat.not_lt.mpr h]
  · intro n hmem
    rw [readN_frame limit t n st a hmem]
    exact hlook

/-- Witness for C10: a store holding one result whose `raw_text` exceeds a
threshold of 5: the view's text is truncated with the note, and after three
reads the stored copy still holds the full text. -/
theorem api_response_truncates_never_mutates_witness :
    (∃ r2,
      lookupStore (taskToApiResponse 5 [(1, ⟨"hello world", "hi", "x"⟩)]
            ⟨.completed, 100, some 1⟩).1
          ((taskToApiResponse 5 [(1, ⟨"hello world", "hi", "x"⟩)]
            ⟨.completed, 100, some 1⟩).2.resultAddr.getD 0) = some r2
      ∧ (taskToApiResponse 5 [(1, ⟨"hello world", "hi", "x"⟩)]
            ⟨.completed, 100, some 1⟩).2.status = Status.completed
      ∧ ((5 : Nat) < ("hello world" : String).length →
          r2.raw_text = ("hello world" : String).take 5 ++ truncNote 11)
      ∧ (("hi" : String).length ≤ 5 → r2.extracted_text = "hi"))
    ∧ lookupStore (readN 5 ⟨.completed, 100, some 1⟩ 3
        [(1, ⟨"hello world", "hi", "x"⟩)]) 1 = some ⟨"hello world", "hi", "x"⟩ := by
  have h := api_response_truncates_never_mutates 5 [(1, ⟨"hello world", "hi", "x"⟩)]
    ⟨.completed, 100, some 1⟩ 1 ⟨"hello world", "hi", "x"⟩ rfl rfl
  obtain ⟨⟨r2, h1, h2, h3, h4, h5, h6, h7, h8⟩, hframe⟩ := h
  refine ⟨⟨r2, h1, h2, ?_, h7⟩, hframe 3 (by simp)⟩
  intro hlen
  have := h4 hlen
  simpa using this

end DeepDistill
